import Mathlib

/-!
Verification of the durable write-ahead-log persistence engine
(entry codec and log store) of the bank-cluster node.

The embedding models bytes as natural numbers below 256, a file as the
list of its bytes, and the subset of std io error kinds the engine
distinguishes.  All definitions follow the source in
src/node/src/wal/entry.rs and src/node/src/wal/wal.rs.
-/

/-- The std io error kinds the engine observes: the end-of-input kind
produced by read calls that hit end of stream before filling their
buffer, the invalid-data kind raised by the recovery scan on a
sequencing violation, and a catch-all for any other device error. -/
inductive ErrorKind where
  | unexpectedEof
  | invalidData
  | other
deriving DecidableEq

/-- Little-endian byte serialization of a natural number into a fixed
number of bytes, truncating as an unsigned machine integer does. -/
def natToLe : Nat → Nat → List Nat
  | 0, _ => []
  | k + 1, n => n % 256 :: natToLe k (n / 256)

/-- The 8 little-endian bytes a u64 write emits. -/
def u64ToLe (n : Nat) : List Nat := natToLe 8 n

/-- Little-endian interpretation of a byte list, as a u64 read does. -/
def leToNat (bs : List Nat) : Nat := bs.foldr (fun b acc => b + 256 * acc) 0

/-- A log entry: index, term and opaque command payload
(src/node/src/wal/entry.rs, struct LogEntry). -/
structure LogEntry where
  index : Nat
  term : Nat
  command : List Nat
deriving DecidableEq

/-- Validity of a LogEntry value as the Rust types enforce it: index and
term fit in a u64, the command length fits in a u64, and each command
byte fits in a u8. -/
def LogEntry.Valid (e : LogEntry) : Prop :=
  e.index < 2 ^ 64 ∧ e.term < 2 ^ 64 ∧ e.command.length < 2 ^ 64 ∧
    ∀ b ∈ e.command, b < 256

instance : DecidablePred LogEntry.Valid := fun e => by
  unfold LogEntry.Valid
  exact inferInstance

/-- LogEntry::encode: write index, term and command length as
little-endian u64 values, then the raw command bytes
(src/node/src/wal/entry.rs lines 13-23).  Writing into a growable
buffer cannot fail, so the model is total. -/
def LogEntry.encode (e : LogEntry) : List Nat :=
  u64ToLe e.index ++ u64ToLe e.term ++ u64ToLe e.command.length ++ e.command

/-- Read::read_exact on a byte stream: consume exactly n bytes, or fail
with the end-of-input kind when fewer are available. -/
def readExact (n : Nat) (s : List Nat) : Except ErrorKind (List Nat × List Nat) :=
  if n ≤ s.length then .ok (s.take n, s.drop n) else .error .unexpectedEof

/-- byteorder read_u64 in little-endian: read 8 bytes exactly and
interpret them, propagating the end-of-input failure. -/
def readU64 (s : List Nat) : Except ErrorKind (Nat × List Nat) :=
  match readExact 8 s with
  | .error e => .error e
  | .ok (bs, rest) => .ok (leToNat bs, rest)

/-- LogEntry::decode: read index, term and command length as
little-endian u64 values, then exactly command-length payload bytes
(src/node/src/wal/entry.rs lines 25-38).  Each fallible read
propagates its error, as the question-mark operator does. -/
def LogEntry.decode (s : List Nat) : Except ErrorKind (LogEntry × List Nat) :=
  match readU64 s with
  | .error e => .error e
  | .ok (index, s) =>
    match readU64 s with
    | .error e => .error e
    | .ok (term, s) =>
      match readU64 s with
      | .error e => .error e
      | .ok (commandLen, s) =>
        match readExact commandLen s with
        | .error e => .error e
        | .ok (commandBuf, s) => .ok (⟨index, term, commandBuf⟩, s)

theorem natToLe_length (k n : Nat) : (natToLe k n).length = k := by
  induction k generalizing n with
  | zero => rfl
  | succ k ih => simp [natToLe, ih]

theorem natToLe_lt (k n : Nat) : ∀ b ∈ natToLe k n, b < 256 := by
  induction k generalizing n with
  | zero => simp [natToLe]
  | succ k ih =>
    intro b hb
    simp only [natToLe, List.mem_cons] at hb
    rcases hb with h | h
    · omega
    · exact ih _ b h

theorem leToNat_natToLe (k n : Nat) : leToNat (natToLe k n) = n % 256 ^ k := by
  induction k generalizing n with
  | zero => simp [natToLe, leToNat, Nat.mod_one]
  | succ k ih =>
    have hpos : 0 < (256 : Nat) ^ k := Nat.pos_pow_of_pos k (by omega)
    have hmul : 256 * (n / 256) % (256 * 256 ^ k) = 256 * (n / 256 % 256 ^ k) :=
      Nat.mul_mod_mul_left ..
    have h2 : n / 256 % 256 ^ k < 256 ^ k := Nat.mod_lt _ hpos
    have h3 : n % 256 < 256 := Nat.mod_lt _ (by omega)
    have hsmall : n % 256 % (256 * 256 ^ k) = n % 256 := by
      apply Nat.mod_eq_of_lt
      have : (256 : Nat) ≤ 256 * 256 ^ k := by
        calc (256 : Nat) = 256 * 1 := by omega
          _ ≤ 256 * 256 ^ k := Nat.mul_le_mul_left 256 hpos
      omega
    have hdecomp : n % (256 * 256 ^ k) = n % 256 + 256 * (n / 256 % 256 ^ k) := by
      have h1 : n = 256 * (n / 256) + n % 256 := (Nat.div_add_mod n 256).symm
      calc n % (256 * 256 ^ k)
          = (256 * (n / 256) + n % 256) % (256 * 256 ^ k) := by rw [← h1]
        _ = (256 * (n / 256) % (256 * 256 ^ k) + n % 256 % (256 * 256 ^ k))
              % (256 * 256 ^ k) := by rw [Nat.add_mod]
        _ = (256 * (n / 256 % 256 ^ k) + n % 256) % (256 * 256 ^ k) := by
              rw [hmul, hsmall]
        _ = 256 * (n / 256 % 256 ^ k) + n % 256 := by
              apply Nat.mod_eq_of_lt
              have h4 : 256 * (n / 256 % 256 ^ k) + 256 ≤ 256 * 256 ^ k := by
                have := Nat.succ_le_of_lt h2
                calc 256 * (n / 256 % 256 ^ k) + 256
                    = 256 * (n / 256 % 256 ^ k + 1) := by ring
                  _ ≤ 256 * 256 ^ k := Nat.mul_le_mul_left 256 this
              omega
        _ = n % 256 + 256 * (n / 256 % 256 ^ k) := by omega
    simp only [natToLe, leToNat, List.foldr_cons]
    rw [show (List.foldr (fun b acc => b + 256 * acc) 0 (natToLe k (n / 256)))
          = leToNat (natToLe k (n / 256)) from rfl, ih]
    rw [pow_succ, mul_comm (256 ^ k) 256, hdecomp]

theorem u64ToLe_length (n : Nat) : (u64ToLe n).length = 8 := natToLe_length 8 n

theorem leToNat_u64ToLe (n : Nat) (h : n < 2 ^ 64) : leToNat (u64ToLe n) = n := by
  have := leToNat_natToLe 8 n
  rw [u64ToLe, this, Nat.mod_eq_of_lt]
  have : (256 : Nat) ^ 8 = 2 ^ 64 := by norm_num
  omega

theorem readExact_ok (n : Nat) (s : List Nat) (h : n ≤ s.length) :
    readExact n s = .ok (s.take n, s.drop n) := by
  simp [readExact, h]

theorem readExact_err (n : Nat) (s : List Nat) (h : s.length < n) :
    readExact n s = .error .unexpectedEof := by
  have hn : ¬ n ≤ s.length := by omega
  simp [readExact, hn]

theorem readU64_prepend (n : Nat) (r : List Nat) (h : n < 2 ^ 64) :
    readU64 (u64ToLe n ++ r) = .ok (n, r) := by
  have hlen : (u64ToLe n).length = 8 := u64ToLe_length n
  have htake : (u64ToLe n ++ r).take 8 = u64ToLe n := by
    rw [← hlen]; exact List.take_left ..
  have hdrop : (u64ToLe n ++ r).drop 8 = r := by
    rw [← hlen]; exact List.drop_left ..
  rw [readU64, readExact_ok 8 _ (by simp [hlen]), htake, hdrop]
  simp [leToNat_u64ToLe n h]

theorem readU64_err (s : List Nat) (h : s.length < 8) :
    readU64 s = .error .unexpectedEof := by
  rw [readU64, readExact_err 8 s h]

/-- Decoding a stream that begins with the encoding of a valid entry
succeeds, returns that entry, and leaves exactly the remaining bytes. -/
theorem decode_encode_prepend (e : LogEntry) (r : List Nat) (he : e.Valid) :
    LogEntry.decode (e.encode ++ r) = .ok (e, r) := by
  obtain ⟨hi, ht, hl, _⟩ := he
  have h1 := readU64_prepend e.index
    (u64ToLe e.term ++ (u64ToLe e.command.length ++ (e.command ++ r))) hi
  have h2 := readU64_prepend e.term
    (u64ToLe e.command.length ++ (e.command ++ r)) ht
  have h3 := readU64_prepend e.command.length (e.command ++ r) hl
  have h4 : readExact e.command.length (e.command ++ r) = .ok (e.command, r) := by
    rw [readExact_ok _ _ (by simp)]
    rw [List.take_left, List.drop_left]
  simp only [LogEntry.encode, List.append_assoc, LogEntry.decode, h1, h2, h3, h4]

instance {ε α : Type} [DecidableEq ε] [DecidableEq α] : DecidableEq (Except ε α) :=
  fun a b =>
    match a, b with
    | .ok x, .ok y => decidable_of_iff (x = y) (by simp)
    | .error x, .error y => decidable_of_iff (x = y) (by simp)
    | .ok _, .error _ => .isFalse (by simp)
    | .error _, .ok _ => .isFalse (by simp)

theorem decode_nil : LogEntry.decode [] = .error .unexpectedEof := by
  decide

/-- A successful decode consumes at least the 24 fixed-header bytes, so
the remaining stream is strictly shorter than the input stream. -/
theorem decode_ok_len {s : List Nat} {e : LogEntry} {rest : List Nat}
    (h : LogEntry.decode s = .ok (e, rest)) : rest.length < s.length := by
  rw [LogEntry.decode] at h
  rw [readU64] at h
  rw [readExact] at h
  by_cases h8 : 8 ≤ s.length
  · simp only [if_pos h8] at h
    rw [readU64, readExact] at h
    by_cases h16 : 8 ≤ (s.drop 8).length
    · simp only [if_pos h16] at h
      rw [readU64, readExact] at h
      by_cases h24 : 8 ≤ ((s.drop 8).drop 8).length
      · simp only [if_pos h24] at h
        rw [readExact] at h
        set t := (((s.drop 8).drop 8).drop 8) with ht
        by_cases hc : leToNat (((s.drop 8).drop 8).take 8) ≤ t.length
        · simp only [if_pos hc] at h
          have : rest = t.drop (leToNat (((s.drop 8).drop 8).take 8)) := by
            injection h with h'
            injection h' with _ h2
            exact h2.symm
          subst this
          simp only [ht, List.length_drop] at *
          omega
        · simp only [if_neg hc] at h
          exact absurd h (by simp)
      · simp only [if_neg h24] at h
        exact absurd h (by simp)
    · simp only [if_neg h16] at h
      exact absurd h (by simp)
  · simp only [if_neg h8] at h
    exact absurd h (by simp)

/-- The Wal state: the bytes of the single append-only file and the
in-memory last-index cursor (src/node/src/wal/wal.rs, struct Wal). -/
structure Wal where
  file : List Nat
  last_index : Nat
deriving DecidableEq

/-- The recovery-scan loop of Wal::scan_last_index
(src/node/src/wal/wal.rs lines 30-44): decode entries one after
another; on success require the index to be the running cursor plus
one, failing with the invalid-data sequencing error otherwise; stop
cleanly on the end-of-input kind; propagate any other error. -/
def Wal.scanLoop (last_index : Nat) (s : List Nat) : Except ErrorKind Nat :=
  match hdec : LogEntry.decode s with
  | .ok (entry, rest) =>
    if entry.index ≠ last_index + 1 then .error .invalidData
    else Wal.scanLoop entry.index rest
  | .error e => if e = .unexpectedEof then .ok last_index else .error e
termination_by s.length
decreasing_by exact decode_ok_len hdec

/-- Wal::scan_last_index: run the recovery scan from the start of the
file with the cursor starting at 0 (src/node/src/wal/wal.rs
lines 23-47). -/
def Wal.scan_last_index (contents : List Nat) : Except ErrorKind Nat :=
  Wal.scanLoop 0 contents

/-- Wal::new: open the file (creating, never truncating — the file
bytes are the model input) and recover the cursor by scanning
(src/node/src/wal/wal.rs lines 11-21). -/
def Wal.new (contents : List Nat) : Except ErrorKind Wal :=
  match Wal.scan_last_index contents with
  | .ok last_index => .ok ⟨contents, last_index⟩
  | .error e => .error e

/-- The possible fates of the write-plus-flush step of one append:
everything succeeds, the write fails after emitting a prefix of the
encoded bytes, or the write succeeds and the synchronous flush fails. -/
inductive WriteOutcome where
  | allOk
  | writeFail (written : Nat) (e : ErrorKind)
  | flushFail (e : ErrorKind)
deriving DecidableEq

/-- Wal::append under an explicit I/O outcome
(src/node/src/wal/wal.rs lines 49-57): encode the entry (total in the
model, as writing into a growable buffer cannot fail), write the bytes,
flush, and only then update the cursor to the entry's index; on any
failure the error propagates and the cursor keeps its old value, while
the file may retain a partial write. -/
def Wal.appendWith (w : Wal) (entry : LogEntry) (out : WriteOutcome) :
    Wal × Except ErrorKind Unit :=
  let encoded := entry.encode
  match out with
  | .allOk => (⟨w.file ++ encoded, entry.index⟩, .ok ())
  | .writeFail n e => (⟨w.file ++ encoded.take n, w.last_index⟩, .error e)
  | .flushFail e => (⟨w.file ++ encoded, w.last_index⟩, .error e)

/-- Wal::append when every I/O step succeeds. -/
def Wal.append (w : Wal) (entry : LogEntry) : Wal :=
  (w.appendWith entry .allOk).1

/-- The replay loop of Wal::replay (src/node/src/wal/wal.rs
lines 66-72): decode records in order, accumulating them; stop cleanly
on the end-of-input kind; propagate any other error. -/
def Wal.replayLoop (s : List Nat) (entries : List LogEntry) :
    Except ErrorKind (List LogEntry) :=
  match hdec : LogEntry.decode s with
  | .ok (entry, rest) => Wal.replayLoop rest (entries ++ [entry])
  | .error e => if e = .unexpectedEof then .ok entries else .error e
termination_by s.length
decreasing_by exact decode_ok_len hdec

/-- Wal::replay: scan the whole file from the start on an independent
handle (src/node/src/wal/wal.rs lines 59-75). -/
def Wal.replay (w : Wal) : Except ErrorKind (List LogEntry) :=
  Wal.replayLoop w.file []

/-- The file bytes produced by encoding a list of entries back to
back. -/
def encodeAll : List LogEntry → List Nat
  | [] => []
  | e :: es => e.encode ++ encodeAll es

/-- The entries carry consecutive indices continuing from n + 1. -/
def seqFrom (n : Nat) : List LogEntry → Bool
  | [] => true
  | e :: es => e.index == n + 1 && seqFrom (n + 1) es

theorem scanLoop_ok {s : List Nat} {e : LogEntry} {rest : List Nat}
    (last : Nat) (hdec : LogEntry.decode s = .ok (e, rest))
    (hidx : e.index = last + 1) :
    Wal.scanLoop last s = Wal.scanLoop e.index rest := by
  conv_lhs => unfold Wal.scanLoop
  split
  · next entry rest' heq =>
    rw [hdec] at heq
    injection heq with heq'
    rw [Prod.mk.injEq] at heq'
    obtain ⟨he, hr⟩ := heq'
    subst he
    subst hr
    simp [hidx]
  · next k heq =>
    rw [hdec] at heq
    cases heq

theorem scanLoop_bad {s : List Nat} {e : LogEntry} {rest : List Nat}
    (last : Nat) (hdec : LogEntry.decode s = .ok (e, rest))
    (hidx : e.index ≠ last + 1) :
    Wal.scanLoop last s = .error .invalidData := by
  conv_lhs => unfold Wal.scanLoop
  split
  · next entry rest' heq =>
    rw [hdec] at heq
    injection heq with heq'
    rw [Prod.mk.injEq] at heq'
    obtain ⟨he, hr⟩ := heq'
    subst he
    subst hr
    simp [hidx]
  · next k heq =>
    rw [hdec] at heq
    cases heq

theorem scanLoop_eof {s : List Nat} (last : Nat)
    (hdec : LogEntry.decode s = .error .unexpectedEof) :
    Wal.scanLoop last s = .ok last := by
  conv_lhs => unfold Wal.scanLoop
  split
  · next entry rest' heq =>
    rw [hdec] at heq
    cases heq
  · next k heq =>
    rw [hdec] at heq
    injection heq with heq'
    subst heq'
    simp

theorem replayLoop_ok {s : List Nat} {e : LogEntry} {rest : List Nat}
    (acc : List LogEntry) (hdec : LogEntry.decode s = .ok (e, rest)) :
    Wal.replayLoop s acc = Wal.replayLoop rest (acc ++ [e]) := by
  conv_lhs => unfold Wal.replayLoop
  split
  · next entry rest' heq =>
    rw [hdec] at heq
    injection heq with heq'
    rw [Prod.mk.injEq] at heq'
    obtain ⟨he, hr⟩ := heq'
    subst he
    subst hr
    rfl
  · next k heq =>
    rw [hdec] at heq
    cases heq

theorem replayLoop_eof {s : List Nat} (acc : List LogEntry)
    (hdec : LogEntry.decode s = .error .unexpectedEof) :
    Wal.replayLoop s acc = .ok acc := by
  conv_lhs => unfold Wal.replayLoop
  split
  · next entry rest' heq =>
    rw [hdec] at heq
    cases heq
  · next k heq =>
    rw [hdec] at heq
    injection heq with heq'
    subst heq'
    simp

theorem encode_length (e : LogEntry) : e.encode.length = 24 + e.command.length := by
  simp [LogEntry.encode, u64ToLe_length]
  omega

theorem encodeAll_append_assoc (e : LogEntry) (es : List LogEntry)
    (tail : List Nat) :
    encodeAll (e :: es) ++ tail = e.encode ++ (encodeAll es ++ tail) := by
  simp [encodeAll]

/-- The recovery scan of a file holding consecutively indexed valid
entries followed by a cleanly end-of-input tail stops at that tail and
reports the cursor advanced by the number of entries. -/
theorem scanLoop_seq (es : List LogEntry) (last : Nat) (tail : List Nat)
    (hv : ∀ e ∈ es, e.Valid) (hs : seqFrom last es = true)
    (ht : LogEntry.decode tail = .error .unexpectedEof) :
    Wal.scanLoop last (encodeAll es ++ tail) = .ok (last + es.length) := by
  induction es generalizing last with
  | nil =>
    simp only [encodeAll, List.nil_append, List.length_nil, Nat.add_zero]
    exact scanLoop_eof last ht
  | cons e es ih =>
    rw [seqFrom, Bool.and_eq_true, beq_iff_eq] at hs
    obtain ⟨hidx, hrest⟩ := hs
    have hev : e.Valid := hv e (by simp)
    have hdec : LogEntry.decode (encodeAll (e :: es) ++ tail)
        = .ok (e, encodeAll es ++ tail) := by
      rw [encodeAll_append_assoc]
      exact decode_encode_prepend e _ hev
    rw [scanLoop_ok last hdec hidx, hidx]
    have := ih (last + 1) (fun x hx => hv x (by simp [hx])) hrest
    rw [this]
    simp [List.length_cons]
    omega

/-- The recovery scan of a file holding valid entries whose indices are
not consecutive from the cursor fails with the sequencing-violation
error, whatever follows the entries. -/
theorem scanLoop_nonseq (es : List LogEntry) (last : Nat) (tail : List Nat)
    (hv : ∀ e ∈ es, e.Valid) (hs : seqFrom last es = false) :
    Wal.scanLoop last (encodeAll es ++ tail) = .error .invalidData := by
  induction es generalizing last with
  | nil => simp [seqFrom] at hs
  | cons e es ih =>
    have hev : e.Valid := hv e (by simp)
    have hdec : LogEntry.decode (encodeAll (e :: es) ++ tail)
        = .ok (e, encodeAll es ++ tail) := by
      rw [encodeAll_append_assoc]
      exact decode_encode_prepend e _ hev
    rw [seqFrom, Bool.and_eq_false_iff] at hs
    by_cases hidx : e.index = last + 1
    · have hrest : seqFrom (last + 1) es = false := by
        rcases hs with h | h
        · rw [beq_eq_false_iff_ne] at h
          exact absurd hidx h
        · exact h
      rw [scanLoop_ok last hdec hidx, hidx]
      exact ih (last + 1) (fun x hx => hv x (by simp [hx])) hrest
    · exact scanLoop_bad last hdec hidx

/-- Replay of a file holding valid entries followed by a cleanly
end-of-input tail returns the accumulated entries followed by the
decoded ones, with no sequencing requirement. -/
theorem replayLoop_all (es : List LogEntry) (acc : List LogEntry)
    (tail : List Nat) (hv : ∀ e ∈ es, e.Valid)
    (ht : LogEntry.decode tail = .error .unexpectedEof) :
    Wal.replayLoop (encodeAll es ++ tail) acc = .ok (acc ++ es) := by
  induction es generalizing acc with
  | nil =>
    simp only [encodeAll, List.nil_append, List.append_nil]
    exact replayLoop_eof acc ht
  | cons e es ih =>
    have hev : e.Valid := hv e (by simp)
    have hdec : LogEntry.decode (encodeAll (e :: es) ++ tail)
        = .ok (e, encodeAll es ++ tail) := by
      rw [encodeAll_append_assoc]
      exact decode_encode_prepend e _ hev
    rw [replayLoop_ok acc hdec]
    rw [ih (acc ++ [e]) (fun x hx => hv x (by simp [hx]))]
    simp

theorem take_append_full (l r : List Nat) (k : Nat) (h : l.length ≤ k) :
    (l ++ r).take k = l ++ r.take (k - l.length) := by
  rw [List.take_append_eq_append_take, List.take_of_length_le h]

/-- Decoding any strict prefix of an encoded valid entry fails with the
end-of-input kind, whether the cut falls inside one of the three fixed
fields or inside the declared payload. -/
theorem decode_take_encode (e : LogEntry) (k : Nat) (he : e.Valid)
    (hk : k < e.encode.length) :
    LogEntry.decode (e.encode.take k) = .error .unexpectedEof := by
  obtain ⟨hi, ht, hl, _⟩ := he
  have hA : (u64ToLe e.index).length = 8 := u64ToLe_length _
  have hB : (u64ToLe e.term).length = 8 := u64ToLe_length _
  have hC : (u64ToLe e.command.length).length = 8 := u64ToLe_length _
  have hk' : k < 24 + e.command.length := by
    rw [encode_length] at hk
    exact hk
  rw [LogEntry.encode, List.append_assoc, List.append_assoc]
  have hbc : (u64ToLe e.term ++ (u64ToLe e.command.length ++ e.command)).length
      = 16 + e.command.length := by
    simp [hB, hC]
    omega
  have hcc : (u64ToLe e.command.length ++ e.command).length
      = 8 + e.command.length := by
    simp [hC]
  by_cases h8 : k < 8
  · have hshort : ((u64ToLe e.index ++
        (u64ToLe e.term ++ (u64ToLe e.command.length ++ e.command))).take k).length
        < 8 := by
      rw [List.length_take]
      omega
    simp only [LogEntry.decode, readU64_err _ hshort]
  · have e1 : (u64ToLe e.index ++
        (u64ToLe e.term ++ (u64ToLe e.command.length ++ e.command))).take k
        = u64ToLe e.index ++
          ((u64ToLe e.term ++ (u64ToLe e.command.length ++ e.command)).take (k - 8)) := by
      rw [take_append_full _ _ k (by omega), hA]
    rw [e1]
    by_cases h16 : k < 16
    · have hshort : ((u64ToLe e.term ++
          (u64ToLe e.command.length ++ e.command)).take (k - 8)).length < 8 := by
        rw [List.length_take]
        omega
      have r1 := readU64_prepend e.index
        ((u64ToLe e.term ++ (u64ToLe e.command.length ++ e.command)).take (k - 8)) hi
      simp only [LogEntry.decode, r1, readU64_err _ hshort]
    · have e2 : (u64ToLe e.term ++
          (u64ToLe e.command.length ++ e.command)).take (k - 8)
          = u64ToLe e.term ++ ((u64ToLe e.command.length ++ e.command).take (k - 8 - 8)) := by
        rw [take_append_full _ _ _ (by omega), hB]
      rw [e2]
      by_cases h24 : k < 24
      · have hshort : ((u64ToLe e.command.length ++ e.command).take (k - 8 - 8)).length
            < 8 := by
          rw [List.length_take]
          omega
        have r1 := readU64_prepend e.index
          (u64ToLe e.term ++ ((u64ToLe e.command.length ++ e.command).take (k - 8 - 8))) hi
        have r2 := readU64_prepend e.term
          ((u64ToLe e.command.length ++ e.command).take (k - 8 - 8)) ht
        simp only [LogEntry.decode, r1, r2, readU64_err _ hshort]
      · have e3 : (u64ToLe e.command.length ++ e.command).take (k - 8 - 8)
            = u64ToLe e.command.length ++ (e.command.take (k - 8 - 8 - 8)) := by
          rw [take_append_full _ _ _ (by omega), hC]
        rw [e3]
        have hshort : (e.command.take (k - 8 - 8 - 8)).length < e.command.length := by
          rw [List.length_take]
          omega
        have r1 := readU64_prepend e.index
          (u64ToLe e.term ++ (u64ToLe e.command.length ++ (e.command.take (k - 8 - 8 - 8)))) hi
        have r2 := readU64_prepend e.term
          (u64ToLe e.command.length ++ (e.command.take (k - 8 - 8 - 8))) ht
        have r3 := readU64_prepend e.command.length
          (e.command.take (k - 8 - 8 - 8)) hl
        simp only [LogEntry.decode, r1, r2, r3, readExact_err _ _ hshort]

theorem natToLe_eq_range (k n : Nat) :
    natToLe k n = (List.range k).map (fun j => n / 256 ^ j % 256) := by
  induction k generalizing n with
  | zero => simp [natToLe]
  | succ k ih =>
    rw [natToLe, ih, List.range_succ_eq_map, List.map_cons, List.map_map]
    congr 1
    · simp
    · apply List.map_congr_left
      intro j _
      simp only [Function.comp_apply]
      rw [Nat.div_div_eq_div_mul, Nat.succ_eq_add_one, pow_succ']

theorem wal_new_nil : Wal.new [] = .ok ⟨[], 0⟩ := by
  have h := scanLoop_eof 0 decode_nil
  simp only [Wal.new, Wal.scan_last_index, h]

theorem foldl_append_file (es : List LogEntry) (w : Wal) :
    (es.foldl Wal.append w).file = w.file ++ encodeAll es := by
  induction es generalizing w with
  | nil => simp [encodeAll]
  | cons e es ih =>
    rw [List.foldl_cons, ih]
    simp [Wal.append, Wal.appendWith, encodeAll]

theorem foldl_append_last (es : List LogEntry) (w : Wal) (n : Nat)
    (hs : seqFrom n es = true) (hw : w.last_index = n) :
    (es.foldl Wal.append w).last_index = n + es.length := by
  induction es generalizing w n with
  | nil => simpa using hw
  | cons e es ih =>
    rw [seqFrom, Bool.and_eq_true, beq_iff_eq] at hs
    obtain ⟨hidx, hrest⟩ := hs
    rw [List.foldl_cons]
    have := ih (w.append e) (n + 1) hrest (by simp [Wal.append, Wal.appendWith, hidx])
    rw [this]
    simp
    omega

/-- C1: for every valid LogEntry — any u64 index and term, including the
maximum 64-bit values, and any command byte payload including the empty
one — decoding the result of encoding the entry succeeds, yields a
value-identical entry, and consumes the whole encoding. -/
theorem log_entry_roundtrip (e : LogEntry) (he : e.Valid) :
    LogEntry.decode e.encode = .ok (e, []) := by
  have h := decode_encode_prepend e [] he
  simpa using h

theorem log_entry_roundtrip_witness :
    (LogEntry.mk 18446744073709551615 18446744073709551615 []).Valid
    ∧ LogEntry.decode (LogEntry.mk 18446744073709551615
        18446744073709551615 []).encode
      = .ok (LogEntry.mk 18446744073709551615 18446744073709551615 [], []) :=
  ⟨by decide, log_entry_roundtrip _ (by decide)⟩

/-- C2 counterexample: a file whose single record has its full 24-byte
fixed header (declaring a 4-byte payload) but only 2 payload bytes.
Decode fails with the very same end-of-input kind that signals clean
end-of-log — not a distinct corruption error — and open consequently
succeeds with the cursor at the last complete record instead of
failing. -/
theorem truncated_tail_cex :
    LogEntry.decode (u64ToLe 1 ++ u64ToLe 1 ++ u64ToLe 4 ++ [97, 98])
      = .error .unexpectedEof
    ∧ Wal.new (u64ToLe 1 ++ u64ToLe 1 ++ u64ToLe 4 ++ [97, 98])
      = .ok ⟨u64ToLe 1 ++ u64ToLe 1 ++ u64ToLe 4 ++ [97, 98], 0⟩ := by
  have hdec : LogEntry.decode (u64ToLe 1 ++ u64ToLe 1 ++ u64ToLe 4 ++ [97, 98])
      = .error .unexpectedEof := by decide
  refine ⟨hdec, ?_⟩
  have h := scanLoop_eof 0 hdec
  simp only [Wal.new, Wal.scan_last_index, h]

/-- C2 amended: for every file consisting of one record truncated after
its complete 24-byte fixed header but before the end of its declared
payload, decode fails with the same end-of-input kind as the clean
end-of-log signal, and open consequently succeeds, stopping cleanly
with the cursor at the last complete record (here 0). -/
theorem truncated_tail_amended (e : LogEntry) (k : Nat) (he : e.Valid)
    (h24 : 24 ≤ k) (hk : k < e.encode.length) :
    LogEntry.decode (e.encode.take k) = .error .unexpectedEof
    ∧ Wal.new (e.encode.take k) = .ok ⟨e.encode.take k, 0⟩ := by
  have hdec := decode_take_encode e k he hk
  refine ⟨hdec, ?_⟩
  have h := scanLoop_eof 0 hdec
  simp only [Wal.new, Wal.scan_last_index, h]

theorem truncated_tail_amended_witness :
    (LogEntry.mk 1 2 [9, 8, 7, 6]).Valid ∧ 24 ≤ 26
    ∧ 26 < (LogEntry.mk 1 2 [9, 8, 7, 6]).encode.length
    ∧ LogEntry.decode ((LogEntry.mk 1 2 [9, 8, 7, 6]).encode.take 26)
        = .error .unexpectedEof
    ∧ Wal.new ((LogEntry.mk 1 2 [9, 8, 7, 6]).encode.take 26)
        = .ok ⟨(LogEntry.mk 1 2 [9, 8, 7, 6]).encode.take 26, 0⟩ := by
  refine ⟨by decide, by decide, by decide, ?_, ?_⟩
  · exact (truncated_tail_amended _ 26 (by decide) (by decide) (by decide)).1
  · exact (truncated_tail_amended _ 26 (by decide) (by decide) (by decide)).2

/-- C3: open's recovery scan checks each decoded entry's index against
the running cursor starting at 0: when the entries on disk are
consecutively indexed from 1 it succeeds with the cursor at the index
of the last entry (0 for an empty file, the length of the list in
general), and when any entry breaks the previous-plus-one rule it
fails with the invalid-data sequencing-violation error rather than
recovering partially. -/
theorem wal_open_sequencing (es : List LogEntry) (hv : ∀ e ∈ es, e.Valid) :
    (seqFrom 0 es = true →
      Wal.new (encodeAll es) = .ok ⟨encodeAll es, es.length⟩)
    ∧ (seqFrom 0 es = false →
      Wal.new (encodeAll es) = .error .invalidData) := by
  constructor
  · intro hs
    have h := scanLoop_seq es 0 [] hv hs decode_nil
    rw [List.append_nil] at h
    simp only [Wal.new, Wal.scan_last_index, h, Nat.zero_add]
  · intro hs
    have h := scanLoop_nonseq es 0 [] hv hs
    rw [List.append_nil] at h
    simp only [Wal.new, Wal.scan_last_index, h]

theorem wal_open_sequencing_witness :
    Wal.new (encodeAll [LogEntry.mk 1 1 [97], LogEntry.mk 2 1 [98]])
      = .ok ⟨encodeAll [LogEntry.mk 1 1 [97], LogEntry.mk 2 1 [98]], 2⟩
    ∧ Wal.new (encodeAll [LogEntry.mk 1 1 [97], LogEntry.mk 3 1 [98]])
      = .error .invalidData :=
  ⟨(wal_open_sequencing [LogEntry.mk 1 1 [97], LogEntry.mk 2 1 [98]]
      (by decide)).1 (by decide),
   (wal_open_sequencing [LogEntry.mk 1 1 [97], LogEntry.mk 3 1 [98]]
      (by decide)).2 (by decide)⟩

/-- C4: append updates the in-memory cursor to the entry's index only
when the write and the synchronous flush both succeed; on any failure
the error propagates, the cursor is unchanged, and the file holds the
old bytes followed by some prefix of the encoded entry (a possible
partial write). -/
theorem wal_append_cursor_atomic (w : Wal) (e : LogEntry) (out : WriteOutcome) :
    ((w.appendWith e out).2 = .ok () →
      (w.appendWith e out).1 = ⟨w.file ++ e.encode, e.index⟩)
    ∧ (∀ k, (w.appendWith e out).2 = .error k →
      (w.appendWith e out).1.last_index = w.last_index
      ∧ ∃ n, (w.appendWith e out).1.file = w.file ++ e.encode.take n) := by
  cases out with
  | allOk =>
    refine ⟨fun _ => rfl, fun k hk => ?_⟩
    simp [Wal.appendWith] at hk
  | writeFail n k' =>
    refine ⟨fun h => ?_, fun k hk => ⟨rfl, n, rfl⟩⟩
    simp [Wal.appendWith] at h
  | flushFail k' =>
    refine ⟨fun h => ?_, fun k hk => ⟨rfl, e.encode.length, ?_⟩⟩
    · simp [Wal.appendWith] at h
    · simp [Wal.appendWith, List.take_length]

theorem wal_append_cursor_atomic_witness :
    ((Wal.mk [] 7).appendWith (LogEntry.mk 1 1 [42]) .allOk).1
      = ⟨[] ++ (LogEntry.mk 1 1 [42]).encode, 1⟩
    ∧ ((Wal.mk [] 7).appendWith (LogEntry.mk 1 1 [42])
        (.flushFail .other)).1.last_index = 7 :=
  ⟨(wal_append_cursor_atomic ⟨[], 7⟩ (LogEntry.mk 1 1 [42]) .allOk).1 (by decide),
   ((wal_append_cursor_atomic ⟨[], 7⟩ (LogEntry.mk 1 1 [42])
      (.flushFail .other)).2 .other (by decide)).1⟩

/-- C5: appending valid entries indexed 1..N in order to a freshly
opened empty log, with all I/O succeeding, leaves the cursor at N and
makes replay return exactly those N entries in append order with
unchanged fields. -/
theorem wal_append_monotone_replay (es : List LogEntry) (w0 : Wal)
    (hv : ∀ e ∈ es, e.Valid) (hs : seqFrom 0 es = true)
    (h0 : Wal.new [] = .ok w0) :
    (es.foldl Wal.append w0).last_index = es.length
    ∧ (es.foldl Wal.append w0).replay = .ok es := by
  have hw0 : w0 = ⟨[], 0⟩ := by
    rw [wal_new_nil] at h0
    injection h0 with h'
    exact h'.symm
  subst hw0
  constructor
  · have h := foldl_append_last es ⟨[], 0⟩ 0 hs rfl
    simpa using h
  · rw [Wal.replay, foldl_append_file]
    have h := replayLoop_all es [] [] hv decode_nil
    simpa using h

theorem wal_append_monotone_replay_witness :
    ([LogEntry.mk 1 1 [97], LogEntry.mk 2 2 [98]].foldl Wal.append
        ⟨[], 0⟩).last_index = 2
    ∧ ([LogEntry.mk 1 1 [97], LogEntry.mk 2 2 [98]].foldl Wal.append
        ⟨[], 0⟩).replay = .ok [LogEntry.mk 1 1 [97], LogEntry.mk 2 2 [98]] :=
  wal_append_monotone_replay [LogEntry.mk 1 1 [97], LogEntry.mk 2 2 [98]]
    ⟨[], 0⟩ (by decide) (by decide) wal_new_nil

/-- C6: encode produces exactly 8 little-endian bytes of the index,
8 little-endian bytes of the term, 8 little-endian bytes of the
command's byte length, then the raw command bytes — 24 plus
command-length bytes in total, with nothing else. -/
theorem log_entry_encode_layout (e : LogEntry) :
    e.encode = (List.range 8).map (fun j => e.index / 256 ^ j % 256)
      ++ (List.range 8).map (fun j => e.term / 256 ^ j % 256)
      ++ (List.range 8).map (fun j => e.command.length / 256 ^ j % 256)
      ++ e.command
    ∧ e.encode.length = 24 + e.command.length := by
  refine ⟨?_, encode_length e⟩
  rw [LogEntry.encode, u64ToLe, u64ToLe, u64ToLe]
  rw [natToLe_eq_range, natToLe_eq_range, natToLe_eq_range]

/-- C7: append performs no check of the entry's index against the
current cursor: for every store state and every entry it succeeds
whenever the I/O steps succeed, writing the encoded bytes and adopting
the entry's index; sequencing is only enforced by the recovery scan at
open time, which rejects the file produced by an out-of-order
append. -/
theorem wal_append_no_seq_check (w : Wal) (e : LogEntry) :
    (w.appendWith e .allOk).2 = .ok ()
    ∧ (w.appendWith e .allOk).1 = ⟨w.file ++ e.encode, e.index⟩
    ∧ Wal.new ((Wal.mk [] 0).append ⟨2, 1, []⟩).file = .error .invalidData := by
  refine ⟨rfl, rfl, ?_⟩
  have hdec : LogEntry.decode ((Wal.mk [] 0).append ⟨2, 1, []⟩).file
      = .ok (⟨2, 1, []⟩, []) := by decide
  have h := scanLoop_bad 0 hdec (by decide)
  simp only [Wal.new, Wal.scan_last_index, h]

/-- C8: decode reports the same end-of-input kind whether the stream is
empty at a record boundary, ends inside one of the three fixed fields,
or ends inside the declared payload; since the recovery scan and
replay both stop cleanly on exactly that kind, open on a file whose
tail record is truncated anywhere succeeds with the cursor at the last
complete record, and replay returns exactly the complete records. -/
theorem wal_truncated_tail_clean_stop (es : List LogEntry) (e : LogEntry)
    (k : Nat) (hv : ∀ x ∈ es, x.Valid) (he : e.Valid)
    (hs : seqFrom 0 es = true) (hk : k < e.encode.length) :
    LogEntry.decode (e.encode.take k) = .error .unexpectedEof
    ∧ Wal.new (encodeAll es ++ e.encode.take k)
      = .ok ⟨encodeAll es ++ e.encode.take k, es.length⟩
    ∧ Wal.replay ⟨encodeAll es ++ e.encode.take k, es.length⟩ = .ok es := by
  have hdec := decode_take_encode e k he hk
  refine ⟨hdec, ?_, ?_⟩
  · have h := scanLoop_seq es 0 (e.encode.take k) hv hs hdec
    simp only [Wal.new, Wal.scan_last_index, h, Nat.zero_add]
  · have h := replayLoop_all es [] (e.encode.take k) hv hdec
    simpa using h

theorem wal_truncated_tail_clean_stop_witness :
    LogEntry.decode ((LogEntry.mk 2 1 [104, 105]).encode.take 25)
      = .error .unexpectedEof
    ∧ Wal.new (encodeAll [LogEntry.mk 1 1 [97]]
        ++ (LogEntry.mk 2 1 [104, 105]).encode.take 25)
      = .ok ⟨encodeAll [LogEntry.mk 1 1 [97]]
        ++ (LogEntry.mk 2 1 [104, 105]).encode.take 25, 1⟩
    ∧ Wal.replay ⟨encodeAll [LogEntry.mk 1 1 [97]]
        ++ (LogEntry.mk 2 1 [104, 105]).encode.take 25, 1⟩
      = .ok [LogEntry.mk 1 1 [97]] :=
  wal_truncated_tail_clean_stop [LogEntry.mk 1 1 [97]]
    (LogEntry.mk 2 1 [104, 105]) 25 (by decide) (by decide) (by decide)
    (by decide)

/-- C9: after every successful append the cursor equals the appended
entry's index unconditionally — in particular an entry whose index is
below the current cursor moves the cursor backwards, so the cursor is
not monotone across appends and nothing in the store enforces
monotonicity between recovery scans. -/
theorem wal_append_cursor_overwrite (w : Wal) (e : LogEntry) :
    (w.append e).last_index = e.index
    ∧ ((Wal.mk [] 5).append ⟨3, 1, []⟩).last_index
        < (Wal.mk [] 5).last_index :=
  ⟨rfl, by decide⟩

/-- C10: replay performs no index-sequentiality validation: for every
file consisting of decodable records it succeeds and returns the
decoded entries verbatim in file order, whatever their indices and
whatever the cursor holds. -/
theorem wal_replay_no_seq_check (es : List LogEntry) (li : Nat)
    (hv : ∀ e ∈ es, e.Valid) :
    Wal.replay ⟨encodeAll es, li⟩ = .ok es := by
  rw [Wal.replay]
  have h := replayLoop_all es [] [] hv decode_nil
  simpa using h

theorem wal_replay_no_seq_check_witness :
    Wal.replay ⟨encodeAll [LogEntry.mk 1 1 [97], LogEntry.mk 3 7 [98]], 0⟩
      = .ok [LogEntry.mk 1 1 [97], LogEntry.mk 3 7 [98]] :=
  wal_replay_no_seq_check [LogEntry.mk 1 1 [97], LogEntry.mk 3 7 [98]] 0
    (by decide)
